import Mathlib

/-!
Verification of the `video_fetcher` stock-footage pipeline.

The development shallowly embeds the pure core of `video_fetcher.py`:
filename sanitization (`safe_filename`, `shorten_name`), the retrying
downloader (`download_file`), the two provider adapters
(`pexels_search`, `pixabay_search`) and the aggregator (`fetch`).

External effects are made explicit:
* the HTTP world is a function from request index (or page number) to the
  response the endpoint would give;
* the filesystem seen by the downloader is the pair of contents at the
  destination path and at its `.part` sibling, plus a count of renames;
* environment credentials are `Option String` parameters;
* Python's Unicode-aware `str.isalnum` is an arbitrary character
  predicate parameter.
-/

namespace VideoFetcher

/-! ### Naming / sanitization (`safe_filename`, `shorten_name`) -/

/-- The allow-list `keep = "-_.()[] {}"` of `safe_filename`. -/
def keep : List Char := ['-', '_', '.', '(', ')', '[', ']', ' ', '\x7b', '\x7d']

/-- One character of the generator
`c if c.isalnum() or c in keep else '_'`; Python's Unicode `isalnum`
is the parameter. -/
def sanitizeChar (isalnum : Char → Bool) (c : Char) : Char :=
  if isalnum c || keep.contains c then c else '_'

/-- Python `.strip('_')`: drop all leading and trailing underscores. -/
def stripUnderscores (s : List Char) : List Char :=
  (((s.dropWhile (fun c => c = '_')).reverse).dropWhile (fun c => c = '_')).reverse

/-- Function `safe_filename` from the source: map every character through the
keep-or-underscore rule, then strip leading/trailing underscores.
Strings are modelled as their character lists. -/
def safe_filename (isalnum : Char → Bool) (name : List Char) : List Char :=
  stripUnderscores (name.map (sanitizeChar isalnum))

/-- Function `shorten_name` from the source: sanitize, then truncate to `max_len`
characters when longer (the source default is `max_len = 50`). -/
def shorten_name (isalnum : Char → Bool) (name : List Char) (max_len : Nat) : List Char :=
  let safe := safe_filename isalnum name
  if max_len < safe.length then safe.take max_len else safe

/-! ### Downloader (`download_file`) -/

/-- One HTTP response of the endpoint: status code and body bytes. -/
structure Response where
  status : Nat
  body : List Nat
deriving DecidableEq

/-- The filesystem cells the downloader touches: content at the
destination path and at the `.part` temporary sibling
(`dest.with_suffix(dest.suffix + ".part")`, i.e. `dest + ".part"`);
`none` means no file there. -/
structure FS where
  dest : Option (List Nat)
  part : Option (List Nat)
deriving DecidableEq

/-- Outcome of `download_file`: normal return, the
`RuntimeError(f"Không tải được {url} -> HTTP {r.status_code}")`
carrying the url and last status, or the `NameError` hit when the
`raise` line reads the loop variable `r` that was never bound. -/
inductive DLStatus where
  | ok : DLStatus
  | httpError : String → Nat → DLStatus
  | nameError : DLStatus
deriving DecidableEq

/-- Observable result of a `download_file` call: final status, final
filesystem state, number of GET requests issued, and number of
renames onto the destination path. -/
structure DLOutcome where
  status : DLStatus
  fs : FS
  requests : Nat
  destWrites : Nat
deriving DecidableEq

/-- The `while attempt < retries` loop of `download_file`, with
`remaining = retries - attempt` as the recursion measure.  `responses i`
is what the `i`-th GET returns.  On a 200, the body is streamed to the
`.part` path and `tmp.replace(dest)` renames it over the destination;
otherwise the attempt counter advances.  Falling out of the loop
raises from the last response, or hits the unbound name `r` when the
loop body never ran. -/
def downloadAttempts (url : String) (responses : Nat → Response) (fs : FS) :
    Nat → Nat → DLOutcome
  | attempt, 0 =>
    { status := if attempt = 0 then DLStatus.nameError
      else DLStatus.httpError url (responses (attempt - 1)).status
      fs := fs, requests := attempt, destWrites := 0 }
  | attempt, remaining + 1 =>
    let r := responses attempt
    if r.status = 200 then
      { status := DLStatus.ok
        fs := { dest := some r.body, part := none }
        requests := attempt + 1, destWrites := 1 }
    else downloadAttempts url responses fs (attempt + 1) remaining

/-- Call `download_file(url, dest, headers, retries)` over the explicit
endpoint and filesystem. -/
def download_file (url : String) (responses : Nat → Response) (fs : FS)
    (retries : Nat) : DLOutcome :=
  downloadAttempts url responses fs 0 retries

/-! ### Common record shape -/

/-- Interpolating a possibly-missing id into a title, as Python's
f-string renders `None`. -/
def idStr : Option Nat → String
  | none => "None"
  | some n => toString n

/-- Python `a or b` for string fields: `b` when `a` is `None` or empty. -/
def orElseStr (a : Option String) (b : String) : String :=
  match a with
  | none => b
  | some s => if s = "" then b else s

/-- One normalized result record, the dict built by the adapters.
Fields read with `.get` from provider JSON stay optional. -/
structure SearchResult where
  provider : String
  id : Option Nat
  title : String
  width : Option Nat
  height : Option Nat
  url : Option String
  license : String
  permalink : Option String
deriving DecidableEq

/-! ### Pexels adapter (`pexels_search`)

The HTTP world is `pages : Nat → List PexelsVideo`, the `videos` array
the endpoint returns for each requested page number (the JSON of a 200
response; a non-2xx response would raise out of `r.raise_for_status()`
and is outside these claims). -/

/-- One entry of a video's `video_files` array. -/
structure PexelsFile where
  width : Option Nat
  height : Option Nat
  link : Option String
deriving DecidableEq

/-- One entry of the `videos` array of a Pexels search response;
`userName` is `(v.get("user", {}) or {}).get("name")`. -/
structure PexelsVideo where
  id : Option Nat
  userName : Option String
  video_files : List PexelsFile
  url : Option String
deriving DecidableEq

/-- The sort key `x.get("width") or 0` used on `video_files`. -/
def pexKey (f : PexelsFile) : Nat := f.width.getD 0

/-- The sort `sorted(v.get("video_files", []), key=..., reverse=True)`:
a stable sort, descending by `pexKey`. -/
def pexelsSortFiles (files : List PexelsFile) : List PexelsFile :=
  files.mergeSort (fun a b => pexKey b ≤ pexKey a)

/-- The pick `next((f for f in files if (f.get("width") or 0) >= min_width), None)`. -/
def pexelsPick (min_width : Nat) (files : List PexelsFile) : Option PexelsFile :=
  (pexelsSortFiles files).find? (fun f => min_width ≤ pexKey f)

/-- The record `pexels_search` appends for a kept hit. -/
def pexelsRecord (v : PexelsVideo) (f : PexelsFile) : SearchResult :=
  { provider := "pexels", id := v.id
    title := orElseStr v.userName ("Pexels " ++ idStr v.id)
    width := f.width, height := f.height, url := f.link
    license := "Pexels License", permalink := v.url }

/-- The `for v in data.get("videos", [])` body: keep a hit when a
variant passes the width floor, and break once `out` reaches `limit`. -/
def pexelsPage (min_width limit : Nat) :
    List PexelsVideo → List SearchResult → List SearchResult
  | [], out => out
  | v :: rest, out =>
    match pexelsPick min_width v.video_files with
    | none => pexelsPage min_width limit rest out
    | some f =>
      let out2 := out ++ [pexelsRecord v f]
      if limit ≤ out2.length then out2 else pexelsPage min_width limit rest out2

/-- The `while len(out) < limit` pagination loop, fuel-indexed: `none`
means the fuel ran out before the loop broke, so a `some` result for a
given fuel certifies termination within that many page requests. -/
def pexelsLoop (pages : Nat → List PexelsVideo) (min_width limit : Nat) :
    Nat → Nat → List SearchResult → Option (List SearchResult)
  | 0, _, _ => none
  | fuel + 1, page, out =>
    if out.length < limit then
      let vids := pages page
      let out2 := pexelsPage min_width limit vids out
      if vids.isEmpty || limit ≤ out2.length then some out2
      else pexelsLoop pages min_width limit fuel (page + 1) out2
    else some out

/-- The request page size `min(80, max(1, limit))`. -/
def pexelsPerPage (limit : Nat) : Nat := min 80 (max 1 limit)

/-- Function `pexels_search(keyword, limit, min_width)`: empty without a
credential, otherwise the pagination loop from page 1.  `keyword` only
shapes the request; the response pages are given directly. -/
def pexels_search (api_key : Option String) (pages : Nat → List PexelsVideo)
    (keyword : String) (limit min_width fuel : Nat) : Option (List SearchResult) :=
  match api_key, keyword with
  | none, _ => some []
  | some _, _ => pexelsLoop pages min_width limit fuel 1 []

/-! ### Pixabay adapter (`pixabay_search`)

The HTTP world is `pages : Nat → List PixHit`, the `hits` array of the
response for each page number. -/

/-- One value of a hit's `videos` mapping (one rendition). -/
structure PixVariant where
  width : Option Nat
  height : Option Nat
  url : Option String
deriving DecidableEq

/-- One entry of the `hits` array; `videos` lists the mapping's values
in insertion order, as Python's `dict.values()` iterates them. -/
structure PixHit where
  id : Option Nat
  tags : Option String
  videos : List PixVariant
  pageURL : Option String
deriving DecidableEq

/-- One candidate tuple `(w, variant.get("url"), variant.get("height"))`
with `w = variant.get("width") or 0`. -/
structure PixCand where
  w : Nat
  url : Option String
  height : Option Nat
deriving DecidableEq

/-- The candidate list built from a hit's variants, in order. -/
def pixCands (h : PixHit) : List PixCand :=
  h.videos.map (fun v => { w := v.width.getD 0, url := v.url, height := v.height })

/-- Optional values ordered with `none` at the bottom, so candidate
tuples compare totally.  (Python compares the later tuple components
only at ties in the earlier ones, and would raise `TypeError` on a
`None`-versus-value comparison there; the model totalizes that case.) -/
def toBot {α : Type} : Option α → WithBot α
  | none => ⊥
  | some a => (a : WithBot α)

/-- The lexicographic key of `candidates.sort(reverse=True)`, which
sorts the `(w, url, height)` tuples. -/
def pixKey (c : PixCand) : ℕ ×ₗ (WithBot String ×ₗ WithBot ℕ) :=
  toLex (c.w, toLex (toBot c.url, toBot c.height))

/-- The sort `candidates.sort(reverse=True)`: stable, descending by `pixKey`. -/
def pixSort (cs : List PixCand) : List PixCand :=
  cs.mergeSort (fun a b => pixKey b ≤ pixKey a)

/-- The pick `next(((w, u, ht) for w, u, ht in candidates if w >= min_width), None)`. -/
def pixabayPick (min_width : Nat) (h : PixHit) : Option PixCand :=
  (pixSort (pixCands h)).find? (fun c => min_width ≤ c.w)

/-- The record `pixabay_search` appends for a kept hit. -/
def pixabayRecord (h : PixHit) (c : PixCand) : SearchResult :=
  { provider := "pixabay", id := h.id
    title := orElseStr h.tags ("Pixabay " ++ idStr h.id)
    width := some c.w, height := c.height, url := c.url
    license := "Pixabay License", permalink := h.pageURL }

/-- The `for h in hits` body of `pixabay_search`. -/
def pixabayPage (min_width limit : Nat) :
    List PixHit → List SearchResult → List SearchResult
  | [], out => out
  | h :: rest, out =>
    match pixabayPick min_width h with
    | none => pixabayPage min_width limit rest out
    | some c =>
      let out2 := out ++ [pixabayRecord h c]
      if limit ≤ out2.length then out2 else pixabayPage min_width limit rest out2

/-- The `while len(out) < limit` pagination loop of `pixabay_search`,
fuel-indexed like `pexelsLoop`. -/
def pixabayLoop (pages : Nat → List PixHit) (min_width limit : Nat) :
    Nat → Nat → List SearchResult → Option (List SearchResult)
  | 0, _, _ => none
  | fuel + 1, page, out =>
    if out.length < limit then
      let hits := pages page
      let out2 := pixabayPage min_width limit hits out
      if hits.isEmpty || limit ≤ out2.length then some out2
      else pixabayLoop pages min_width limit fuel (page + 1) out2
    else some out

/-- The request page size `min(200, max(3, limit))`. -/
def pixabayPerPage (limit : Nat) : Nat := min 200 (max 3 limit)

/-- Function `pixabay_search(keyword, limit, min_width)`. -/
def pixabay_search (api_key : Option String) (pages : Nat → List PixHit)
    (keyword : String) (limit min_width fuel : Nat) : Option (List SearchResult) :=
  match api_key, keyword with
  | none, _ => some []
  | some _, _ => pixabayLoop pages min_width limit fuel 1 []

/-! ### Aggregator (`fetch`) -/

/-- Python's `str.lower()`, character by character. -/
def lower (s : String) : String := String.mk (s.data.map Char.toLower)

/-- The pre-deduplication `results` list built by `fetch`: the source
extends with the Pexels list whenever `"pexels" in pv` and then with
the Pixabay list whenever `"pixabay" in pv`, where
`pv = [p.lower() for p in providers]`.  The two adapters' outputs
(which depend on credentials and the network) are passed in as
parameters. -/
def fetchConcat (pexelsRes pixabayRes : List SearchResult)
    (providers : List String) : List SearchResult :=
  let pv := providers.map lower
  (if pv.contains "pexels" then pexelsRes else []) ++
    (if pv.contains "pixabay" then pixabayRes else [])

/-- The deduplication loop of `fetch`: skip an item whose `url` is in
`seen`, otherwise append it, and break as soon as `deduped` reaches
`limit`. -/
def dedupeGo (limit : Nat) :
    List SearchResult → List (Option String) → List SearchResult → List SearchResult
  | [], _, deduped => deduped
  | item :: rest, seen, deduped =>
    if seen.contains item.url then dedupeGo limit rest seen deduped
    else
      let d := deduped ++ [item]
      if limit ≤ d.length then d else dedupeGo limit rest (item.url :: seen) d

/-- Function `fetch(keyword, limit, providers, min_width)` with the adapters'
outputs supplied explicitly: concatenate the requested providers'
results, then deduplicate by `url` with early exit at `limit`. -/
def fetch (pexelsRes pixabayRes : List SearchResult) (limit : Nat)
    (providers : List String) : List SearchResult :=
  dedupeGo limit (fetchConcat pexelsRes pixabayRes providers) [] []

/-- Deduplication as the spec words it: keep the first occurrence of
every `url`, drop later ones, no truncation.  Used only to compare
`fetch` against the spec's description. -/
def dedupSpec : List SearchResult → List (Option String) → List SearchResult
  | [], _ => []
  | item :: rest, seen =>
    if seen.contains item.url then dedupSpec rest seen
    else item :: dedupSpec rest (item.url :: seen)

/-! ### Theorems: downloader -/

/-- When every response seen inside the retry window fails, the loop
runs through all its attempts and raises from the last response. -/
theorem downloadAttempts_allFail (url : String) (responses : Nat → Response) (fs : FS) :
    ∀ remaining attempt, 1 ≤ attempt + remaining →
    (∀ i, attempt ≤ i → i < attempt + remaining → (responses i).status ≠ 200) →
    downloadAttempts url responses fs attempt remaining =
      { status := DLStatus.httpError url (responses (attempt + remaining - 1)).status
        fs := fs, requests := attempt + remaining, destWrites := 0 } := by
  intro remaining
  induction remaining with
  | zero =>
    intro attempt h1 _
    have ha : ¬ attempt = 0 := by omega
    simp [downloadAttempts, ha]
  | succ m ih =>
    intro attempt _ hfail
    have hne : ¬ (responses attempt).status = 200 :=
      hfail attempt (Nat.le_refl _) (by omega)
    have harith : attempt + 1 + m = attempt + (m + 1) := by omega
    simp only [downloadAttempts, hne, if_false]
    rw [ih (attempt + 1) (by omega) (fun i hi hi2 => hfail i (by omega) (by omega)), harith]

/-- C4: with `retries = n ≥ 1` against an endpoint that never returns
200, `download_file` issues exactly `n` GET requests, raises the
download error carrying the url and the last-seen status, leaves the
filesystem untouched, and never writes the destination. -/
theorem download_always_fail (url : String) (responses : Nat → Response) (fs : FS)
    (n : Nat) (hn : 1 ≤ n) (hfail : ∀ i, i < n → (responses i).status ≠ 200) :
    download_file url responses fs n =
      { status := DLStatus.httpError url (responses (n - 1)).status
        fs := fs, requests := n, destWrites := 0 } := by
  have h := downloadAttempts_allFail url responses fs n 0 (by omega)
    (fun i _ hi => hfail i (by simpa using hi))
  simpa using h

/-- Witness for `download_always_fail` at a concrete always-503 endpoint. -/
theorem download_always_fail_witness :
    download_file "u" (fun _ => ⟨503, [7]⟩) ⟨none, none⟩ 2 =
      { status := DLStatus.httpError "u" 503, fs := ⟨none, none⟩
        requests := 2, destWrites := 0 } :=
  download_always_fail "u" (fun _ => ⟨503, [7]⟩) ⟨none, none⟩ 2 (by decide)
    (fun _ _ => by norm_num)

/-- C2 fails on the code: with the default `retries = 3`, an endpoint
answering three non-200 statuses and then a 200 never gets its fourth
request — the loop exhausts its three attempts and raises, and nothing
is ever written. -/
theorem download_three_failures_cex :
    download_file "u" (fun i => if i < 3 then ⟨503, []⟩ else ⟨200, [1, 2]⟩) ⟨none, none⟩ 3 =
      { status := DLStatus.httpError "u" 503, fs := ⟨none, none⟩
        requests := 3, destWrites := 0 } ∧
    (download_file "u" (fun i => if i < 3 then ⟨503, []⟩ else ⟨200, [1, 2]⟩)
        ⟨none, none⟩ 3).status ≠ DLStatus.ok := by
  decide

/-- C2 amended: with the default `retries = 3`, against an endpoint
whose responses are two consecutive non-200 statuses followed by a 200
with body `b`, the call succeeds after its third request, the full body
sits at the destination path written by exactly one rename, and no
`.part` file remains (even a stale one is consumed by the rename). -/
theorem download_two_failures_then_success (url : String) (responses : Nat → Response)
    (fs : FS) (b : List Nat)
    (h0 : (responses 0).status ≠ 200) (h1 : (responses 1).status ≠ 200)
    (h2 : (responses 2).status = 200) (hb : (responses 2).body = b) :
    download_file url responses fs 3 =
      { status := DLStatus.ok, fs := { dest := some b, part := none }
        requests := 3, destWrites := 1 } := by
  simp [download_file, downloadAttempts, h0, h1, h2, hb]

/-- Witness for `download_two_failures_then_success`; the initial state
holds a stale `.part` file, and none remains. -/
theorem download_two_failures_then_success_witness :
    download_file "u" (fun i => if i < 2 then ⟨503, []⟩ else ⟨200, [1, 2]⟩) ⟨none, some [9]⟩ 3 =
      { status := DLStatus.ok, fs := { dest := some [1, 2], part := none }
        requests := 3, destWrites := 1 } :=
  download_two_failures_then_success "u" _ _ [1, 2] (by decide) (by decide) (by decide)
    (by decide)

/-- C9: with `retries = 0` the loop body never runs, so the `raise`
line reads the never-bound variable `r`: the call ends in the
`NameError`, not the documented download error, after zero requests and
zero writes. -/
theorem download_zero_retries (url : String) (responses : Nat → Response) (fs : FS) :
    download_file url responses fs 0 =
      { status := DLStatus.nameError, fs := fs, requests := 0, destWrites := 0 } ∧
    ∀ u s, (download_file url responses fs 0).status ≠ DLStatus.httpError u s := by
  refine ⟨rfl, ?_⟩
  intro u s
  simp [download_file, downloadAttempts]

/-! ### Theorems: naming / sanitization -/

/-- Every character leaving `sanitizeChar` is alphanumeric (per the
given predicate) or on the allow-list. -/
theorem sanitizeChar_allowed (isalnum : Char → Bool) (c : Char) :
    isalnum (sanitizeChar isalnum c) = true ∨ sanitizeChar isalnum c ∈ keep := by
  unfold sanitizeChar
  by_cases h : (isalnum c || keep.contains c) = true
  · rw [if_pos h]
    rcases Bool.or_eq_true_iff.mp h with h' | h'
    · exact Or.inl h'
    · exact Or.inr (by simpa using h')
  · rw [if_neg h]
    exact Or.inr (by decide)

/-- Characters kept by `sanitizeChar` pass its test, so sanitizing an
already-allowed character changes nothing. -/
theorem sanitizeChar_of_allowed (isalnum : Char → Bool) (c : Char)
    (h : isalnum c = true ∨ c ∈ keep) : sanitizeChar isalnum c = c := by
  unfold sanitizeChar
  rcases h with h | h
  · simp [h]
  · have hc : keep.contains c = true := List.elem_iff.mpr h
    simp only [hc, Bool.or_true, if_true]

/-- Stripping underscores only removes characters. -/
theorem mem_stripUnderscores {c : Char} {s : List Char}
    (hc : c ∈ stripUnderscores s) : c ∈ s := by
  unfold stripUnderscores at hc
  rw [List.mem_reverse] at hc
  have h1 := (@List.dropWhile_sublist Char ((s.dropWhile (fun c => c = '_')).reverse)
    (fun c => c = '_')).subset hc
  rw [List.mem_reverse] at h1
  exact (List.dropWhile_sublist (fun c => c = '_')).subset h1

/-- The first surviving character of a `dropWhile` fails the test. -/
theorem head?_dropWhile {p : Char → Bool} {a : Char} :
    ∀ {s : List Char}, (s.dropWhile p).head? = some a → p a = false
  | [], h => by simp [List.dropWhile] at h
  | x :: t, h => by
    by_cases hx : p x = true
    · rw [List.dropWhile_cons_of_pos hx] at h
      exact head?_dropWhile h
    · rw [List.dropWhile_cons_of_neg hx] at h
      simp at h
      rw [← h]
      exact Bool.not_eq_true _ ▸ eq_false_of_ne_true hx

/-- Appending on the left of a nonempty list keeps its last element. -/
theorem getLast?_append_right {l l' : List Char} (h : l' ≠ []) :
    (l ++ l').getLast? = l'.getLast? := by
  cases h' : l'.getLast? with
  | none => exact absurd (List.getLast?_eq_none_iff.mp h') h
  | some a => simp [List.getLast?_append, h']

/-- The result of `stripUnderscores` does not end in an underscore. -/
theorem stripUnderscores_getLast? (s : List Char) :
    (stripUnderscores s).getLast? ≠ some '_' := by
  intro hlast
  unfold stripUnderscores at hlast
  rw [List.getLast?_reverse] at hlast
  have := head?_dropWhile hlast
  simp at this

/-- The result of `stripUnderscores` does not start with an underscore. -/
theorem stripUnderscores_head? (s : List Char) :
    (stripUnderscores s).head? ≠ some '_' := by
  intro hhead
  unfold stripUnderscores at hhead
  rw [List.head?_reverse] at hhead
  obtain ⟨r, hr⟩ := @List.dropWhile_suffix Char
    ((s.dropWhile (fun c => c = '_')).reverse) (fun c => c = '_')
  have hxne : (s.dropWhile (fun c => c = '_')).reverse.dropWhile (fun c => c = '_') ≠ [] := by
    intro hnil
    rw [hnil] at hhead
    simp at hhead
  rw [← @getLast?_append_right r _ hxne, hr, List.getLast?_reverse] at hhead
  have := head?_dropWhile hhead
  simp at this

/-- C7: for every alphanumeric predicate and every input string, each
character of `safe_filename`'s output is alphanumeric or on the
allow-list `"-_.()[] {}"`, and the output neither starts nor ends with
an underscore. -/
theorem safe_filename_allowed (isalnum : Char → Bool) (name : List Char) (c : Char)
    (hc : c ∈ safe_filename isalnum name) :
    (isalnum c = true ∨ c ∈ keep) ∧
    (safe_filename isalnum name).head? ≠ some '_' ∧
    (safe_filename isalnum name).getLast? ≠ some '_' := by
  refine ⟨?_, stripUnderscores_head? _, stripUnderscores_getLast? _⟩
  have hmem : c ∈ name.map (sanitizeChar isalnum) := mem_stripUnderscores hc
  obtain ⟨a, _, ha⟩ := List.mem_map.mp hmem
  rw [← ha]
  exact sanitizeChar_allowed isalnum a

/-- Witness for `safe_filename_allowed`: the `'_'` that
`safe_filename` produces in `"a_b"` from `"_a!b_"` is on the
allow-list, and that output is underscore-free at both ends. -/
theorem safe_filename_allowed_witness :
    (Char.isAlphanum '_' = true ∨ '_' ∈ keep) ∧
    (safe_filename Char.isAlphanum ['_', 'a', '!', 'b', '_']).head? ≠ some '_' ∧
    (safe_filename Char.isAlphanum ['_', 'a', '!', 'b', '_']).getLast? ≠ some '_' :=
  safe_filename_allowed Char.isAlphanum ['_', 'a', '!', 'b', '_'] '_' (by decide)

/-- C8: `safe_filename` is idempotent: a second pass keeps every
(allowed) character and finds nothing to strip. -/
theorem safe_filename_idempotent (isalnum : Char → Bool) (name : List Char) :
    safe_filename isalnum (safe_filename isalnum name) = safe_filename isalnum name := by
  have hmap : (safe_filename isalnum name).map (sanitizeChar isalnum) =
      safe_filename isalnum name := by
    have hfun : ∀ a ∈ safe_filename isalnum name, sanitizeChar isalnum a = id a := by
      intro a ha
      have hmem : a ∈ name.map (sanitizeChar isalnum) := mem_stripUnderscores ha
      exact (List.mem_map.mp hmem).elim
        (fun b hb => sanitizeChar_of_allowed isalnum a (hb.2 ▸ sanitizeChar_allowed isalnum b))
    rw [List.map_congr_left hfun, List.map_id]
  show stripUnderscores ((safe_filename isalnum name).map (sanitizeChar isalnum)) =
    safe_filename isalnum name
  rw [hmap]
  have h1 : (safe_filename isalnum name).dropWhile (fun c => c = '_') =
      safe_filename isalnum name := by
    cases h : safe_filename isalnum name with
    | nil => rfl
    | cons x t =>
      have hx : x ≠ '_' := by
        have := stripUnderscores_head? (name.map (sanitizeChar isalnum))
        rw [show stripUnderscores (name.map (sanitizeChar isalnum)) =
          safe_filename isalnum name from rfl, h] at this
        simpa using this
      simp [List.dropWhile_cons, hx]
  have h2 : (safe_filename isalnum name).reverse.dropWhile (fun c => c = '_') =
      (safe_filename isalnum name).reverse := by
    cases h : (safe_filename isalnum name).reverse with
    | nil => rfl
    | cons x t =>
      have hx : x ≠ '_' := by
        have hl := stripUnderscores_getLast? (name.map (sanitizeChar isalnum))
        rw [show stripUnderscores (name.map (sanitizeChar isalnum)) =
          safe_filename isalnum name from rfl, ← List.head?_reverse, h] at hl
        simpa using hl
      simp [List.dropWhile_cons, hx]
  show stripUnderscores (safe_filename isalnum name) = safe_filename isalnum name
  unfold stripUnderscores
  rw [h1, h2, List.reverse_reverse]

/-- C10: `shorten_name` is `safe_filename` truncated to its first
`max_len` characters, with no re-sanitization: its length never exceeds
`max_len`, yet on `"a!b"` with `max_len = 2` the output ends with the
underscore that sanitization introduced. -/
theorem shorten_name_trunc :
    (∀ (isalnum : Char → Bool) (name : List Char) (max_len : Nat),
      shorten_name isalnum name max_len = (safe_filename isalnum name).take max_len ∧
      (shorten_name isalnum name max_len).length ≤ max_len) ∧
    (shorten_name Char.isAlphanum ['a', '!', 'b'] 2).getLast? = some '_' := by
  constructor
  · intro isalnum name max_len
    have heq : shorten_name isalnum name max_len =
        (safe_filename isalnum name).take max_len := by
      unfold shorten_name
      by_cases h : max_len < (safe_filename isalnum name).length
      · rw [if_pos h]
      · rw [if_neg h, List.take_of_length_le (by omega)]
    refine ⟨heq, ?_⟩
    rw [heq, List.length_take]
    omega
  · decide

/-! ### Theorems: aggregator -/

/-- The break-at-`limit` deduplication loop computes the spec's
keep-first deduplication truncated to the space left in `deduped`. -/
theorem dedupeGo_eq_take (limit : Nat) :
    ∀ (items : List SearchResult) (seen : List (Option String)) (deduped : List SearchResult),
    deduped.length < limit →
    dedupeGo limit items seen deduped =
      deduped ++ (dedupSpec items seen).take (limit - deduped.length)
  | [], seen, deduped, _ => by simp [dedupeGo, dedupSpec]
  | item :: rest, seen, deduped, hlen => by
    by_cases hseen : item.url ∈ seen
    · rw [show dedupeGo limit (item :: rest) seen deduped = dedupeGo limit rest seen deduped
        by simp [dedupeGo, hseen]]
      rw [show dedupSpec (item :: rest) seen = dedupSpec rest seen
        by simp [dedupSpec, hseen]]
      exact dedupeGo_eq_take limit rest seen deduped hlen
    · have hgo : dedupeGo limit (item :: rest) seen deduped =
          if limit ≤ (deduped ++ [item]).length then deduped ++ [item]
          else dedupeGo limit rest (item.url :: seen) (deduped ++ [item]) := by
        simp [dedupeGo, hseen]
      have hspec : dedupSpec (item :: rest) seen =
          item :: dedupSpec rest (item.url :: seen) := by
        simp [dedupSpec, hseen]
      rw [hgo, hspec]
      by_cases hfull : limit ≤ (deduped ++ [item]).length
      · rw [if_pos hfull]
        have hone : limit - deduped.length = 1 := by
          simp at hfull
          omega
        simp [hone]
      · rw [if_neg hfull]
        have hlt : (deduped ++ [item]).length < limit := by omega
        rw [dedupeGo_eq_take limit rest (item.url :: seen) (deduped ++ [item]) hlt]
        have hsub : limit - deduped.length = (limit - (deduped ++ [item]).length) + 1 := by
          simp
          omega
        simp [hsub, List.take_succ_cons]

/-- No url produced by `dedupSpec` was already in `seen`. -/
theorem dedupSpec_not_seen :
    ∀ (items : List SearchResult) (seen : List (Option String)) (u : Option String),
    u ∈ (dedupSpec items seen).map SearchResult.url → ¬ u ∈ seen
  | [], seen, u, hu => by simp [dedupSpec] at hu
  | item :: rest, seen, u, hu => by
    intro huseen
    by_cases hseen : item.url ∈ seen
    · rw [show dedupSpec (item :: rest) seen = dedupSpec rest seen
        by simp [dedupSpec, hseen]] at hu
      exact dedupSpec_not_seen rest seen u hu huseen
    · rw [show dedupSpec (item :: rest) seen = item :: dedupSpec rest (item.url :: seen)
        by simp [dedupSpec, hseen]] at hu
      rcases List.mem_map.mp hu with ⟨r, hr, hru⟩
      rcases List.mem_cons.mp hr with hr1 | hr2
      · subst hr1
        rw [← hru] at huseen
        exact hseen huseen
      · have : u ∈ (dedupSpec rest (item.url :: seen)).map SearchResult.url :=
          List.mem_map.mpr ⟨r, hr2, hru⟩
        exact dedupSpec_not_seen rest (item.url :: seen) u this
          (List.mem_cons_of_mem _ huseen)

/-- The urls of the spec's deduplication are pairwise distinct. -/
theorem dedupSpec_nodup :
    ∀ (items : List SearchResult) (seen : List (Option String)),
    ((dedupSpec items seen).map SearchResult.url).Nodup
  | [], seen => by simp [dedupSpec]
  | item :: rest, seen => by
    by_cases hseen : item.url ∈ seen
    · rw [show dedupSpec (item :: rest) seen = dedupSpec rest seen
        by simp [dedupSpec, hseen]]
      exact dedupSpec_nodup rest seen
    · rw [show dedupSpec (item :: rest) seen = item :: dedupSpec rest (item.url :: seen)
        by simp [dedupSpec, hseen]]
      rw [List.map_cons, List.nodup_cons]
      refine ⟨?_, dedupSpec_nodup rest (item.url :: seen)⟩
      intro hmem
      exact dedupSpec_not_seen rest (item.url :: seen) item.url hmem (List.mem_cons_self _ _)

/-- C1 fails on the code: requesting `["pixabay", "pexels"]` still
concatenates the Pexels results first — the pre-deduplication sequence
is not in requested order, and the Pixabay record does not precede the
Pexels one. -/
theorem fetch_concat_order_cex :
    fetchConcat [⟨"pexels", none, "t", none, none, some "a", "Pexels License", none⟩]
      [⟨"pixabay", none, "u", none, none, some "b", "Pixabay License", none⟩]
      ["pixabay", "pexels"] =
      [⟨"pexels", none, "t", none, none, some "a", "Pexels License", none⟩,
       ⟨"pixabay", none, "u", none, none, some "b", "Pixabay License", none⟩] ∧
    (fetchConcat [⟨"pexels", none, "t", none, none, some "a", "Pexels License", none⟩]
      [⟨"pixabay", none, "u", none, none, some "b", "Pixabay License", none⟩]
      ["pixabay", "pexels"]).map SearchResult.provider ≠ ["pixabay", "pexels"] := by
  decide

/-- C1 amended: whenever both providers are requested (in either
order), the pre-deduplication concatenation built by `fetch` is the
Pexels results followed by the Pixabay results — the source tests
membership of each provider name, not the requested order. -/
theorem fetch_concat_pexels_first (pexelsRes pixabayRes : List SearchResult)
    (providers : List String)
    (hpex : "pexels" ∈ providers.map lower)
    (hpix : "pixabay" ∈ providers.map lower) :
    fetchConcat pexelsRes pixabayRes providers = pexelsRes ++ pixabayRes := by
  simp [fetchConcat, hpex, hpix]

/-- Witness for `fetch_concat_pexels_first` with the request naming
Pixabay first. -/
theorem fetch_concat_pexels_first_witness :
    fetchConcat [⟨"pexels", none, "t", none, none, some "a", "Pexels License", none⟩]
      [⟨"pixabay", none, "u", none, none, some "b", "Pixabay License", none⟩]
      ["pixabay", "PEXELS"] =
      [⟨"pexels", none, "t", none, none, some "a", "Pexels License", none⟩] ++
      [⟨"pixabay", none, "u", none, none, some "b", "Pixabay License", none⟩] :=
  fetch_concat_pexels_first _ _ ["pixabay", "PEXELS"] (by decide) (by decide)

/-- C3: for `limit ≥ 1`, `fetch` returns exactly the keep-first
deduplication of the concatenated provider results truncated to
`limit` items; its urls are pairwise distinct and its length is at
most `limit`. -/
theorem fetch_eq_dedup_take (pexelsRes pixabayRes : List SearchResult)
    (providers : List String) (limit : Nat) (hlim : 1 ≤ limit) :
    fetch pexelsRes pixabayRes limit providers =
      (dedupSpec (fetchConcat pexelsRes pixabayRes providers) []).take limit ∧
    ((fetch pexelsRes pixabayRes limit providers).map SearchResult.url).Nodup ∧
    (fetch pexelsRes pixabayRes limit providers).length ≤ limit := by
  have heq : fetch pexelsRes pixabayRes limit providers =
      (dedupSpec (fetchConcat pexelsRes pixabayRes providers) []).take limit := by
    unfold fetch
    rw [dedupeGo_eq_take limit (fetchConcat pexelsRes pixabayRes providers) [] []
      (by simpa using hlim)]
    simp
  refine ⟨heq, ?_, ?_⟩
  · rw [heq, List.map_take]
    exact (List.take_sublist _ _).nodup
      (dedupSpec_nodup (fetchConcat pexelsRes pixabayRes providers) [])
  · rw [heq, List.length_take]
    omega

/-- Witness for `fetch_eq_dedup_take`: two Pexels records sharing a
url merged with one Pixabay record, capped at 2. -/
theorem fetch_eq_dedup_take_witness :
    fetch [⟨"pexels", none, "t", none, none, some "a", "Pexels License", none⟩,
           ⟨"pexels", none, "s", none, none, some "a", "Pexels License", none⟩]
      [⟨"pixabay", none, "u", none, none, some "b", "Pixabay License", none⟩]
      2 ["pexels", "pixabay"] =
      (dedupSpec (fetchConcat
        [⟨"pexels", none, "t", none, none, some "a", "Pexels License", none⟩,
         ⟨"pexels", none, "s", none, none, some "a", "Pexels License", none⟩]
        [⟨"pixabay", none, "u", none, none, some "b", "Pixabay License", none⟩]
        ["pexels", "pixabay"]) []).take 2 ∧
    ((fetch [⟨"pexels", none, "t", none, none, some "a", "Pexels License", none⟩,
             ⟨"pexels", none, "s", none, none, some "a", "Pexels License", none⟩]
      [⟨"pixabay", none, "u", none, none, some "b", "Pixabay License", none⟩]
      2 ["pexels", "pixabay"]).map SearchResult.url).Nodup ∧
    (fetch [⟨"pexels", none, "t", none, none, some "a", "Pexels License", none⟩,
            ⟨"pexels", none, "s", none, none, some "a", "Pexels License", none⟩]
      [⟨"pixabay", none, "u", none, none, some "b", "Pixabay License", none⟩]
      2 ["pexels", "pixabay"]).length ≤ 2 :=
  fetch_eq_dedup_take _ _ ["pexels", "pixabay"] 2 (by decide)

/-! ### Theorems: adapter pagination (termination and count) -/

/-- Number of hits on one Pexels page that pass the width filter. -/
def pexelsMatchCount (min_width : Nat) (vids : List PexelsVideo) : Nat :=
  (vids.filter (fun v => (pexelsPick min_width v.video_files).isSome)).length

/-- Total matching Pexels hits on the `k` pages starting at page `p`. -/
def pexelsTotal (pages : Nat → List PexelsVideo) (min_width : Nat) : Nat → Nat → Nat
  | _, 0 => 0
  | p, k + 1 => pexelsMatchCount min_width (pages p) + pexelsTotal pages min_width (p + 1) k

/-- The records one Pexels page contributes when the cap is not hit. -/
def pexelsPageRecs (min_width : Nat) (vids : List PexelsVideo) : List SearchResult :=
  vids.filterMap (fun v => (pexelsPick min_width v.video_files).map (pexelsRecord v))

/-- The records of the `k` Pexels pages starting at page `p`. -/
def pexelsRecsFrom (pages : Nat → List PexelsVideo) (min_width : Nat) :
    Nat → Nat → List SearchResult
  | _, 0 => []
  | p, k + 1 =>
    pexelsPageRecs min_width (pages p) ++ pexelsRecsFrom pages min_width (p + 1) k

/-- One page contributes as many records as it has matching hits. -/
theorem pexelsPageRecs_length (min_width : Nat) (vids : List PexelsVideo) :
    (pexelsPageRecs min_width vids).length = pexelsMatchCount min_width vids := by
  unfold pexelsPageRecs pexelsMatchCount
  rw [List.length_filterMap_eq_countP, ← List.countP_eq_length_filter]
  apply List.countP_congr
  intro v _
  cases pexelsPick min_width v.video_files <;> simp

/-- While the cap stays out of reach, the page body appends exactly the
page's matching records. -/
theorem pexelsPage_no_cap (min_width limit : Nat) :
    ∀ (vids : List PexelsVideo) (out : List SearchResult),
    out.length + pexelsMatchCount min_width vids < limit →
    pexelsPage min_width limit vids out = out ++ pexelsPageRecs min_width vids
  | [], out, _ => by simp [pexelsPage, pexelsPageRecs]
  | v :: rest, out, h => by
    cases hp : pexelsPick min_width v.video_files with
    | none =>
      have hcount : pexelsMatchCount min_width (v :: rest) =
          pexelsMatchCount min_width rest := by
        unfold pexelsMatchCount
        rw [List.filter_cons_of_neg (by simp [hp])]
      rw [show pexelsPage min_width limit (v :: rest) out =
        pexelsPage min_width limit rest out by simp [pexelsPage, hp]]
      rw [show pexelsPageRecs min_width (v :: rest) = pexelsPageRecs min_width rest from
        List.filterMap_cons_none (by simp [hp])]
      exact pexelsPage_no_cap min_width limit rest out (by rw [← hcount]; exact h)
    | some f =>
      have hcount : pexelsMatchCount min_width (v :: rest) =
          pexelsMatchCount min_width rest + 1 := by
        unfold pexelsMatchCount
        rw [List.filter_cons_of_pos (by simp [hp])]
        simp
      have h2 : out.length + (pexelsMatchCount min_width rest + 1) < limit := by
        rw [hcount] at h
        exact h
      have hnotfull : ¬ limit ≤ out.length + 1 := by omega
      rw [show pexelsPage min_width limit (v :: rest) out =
        pexelsPage min_width limit rest (out ++ [pexelsRecord v f]) by
          simp [pexelsPage, hp, hnotfull]]
      rw [show pexelsPageRecs min_width (v :: rest) =
        pexelsRecord v f :: pexelsPageRecs min_width rest from
        List.filterMap_cons_some (by simp [hp])]
      rw [pexelsPage_no_cap min_width limit rest (out ++ [pexelsRecord v f]) (by
        simp only [List.length_append, List.length_cons, List.length_nil]
        omega)]
      simp

/-- Any `k` pages contribute as many records as their matching hits. -/
theorem pexelsRecsFrom_length (pages : Nat → List PexelsVideo) (min_width : Nat) :
    ∀ (k p : Nat),
    (pexelsRecsFrom pages min_width p k).length = pexelsTotal pages min_width p k
  | 0, _ => rfl
  | k + 1, p => by
    unfold pexelsRecsFrom pexelsTotal
    rw [List.length_append, pexelsPageRecs_length,
      pexelsRecsFrom_length pages min_width k (p + 1)]

/-- Running the Pexels pagination loop from page `p`, when the `k`-th
page ahead is the first empty one and fewer matching hits than `limit`
remain, stops at that empty page having appended exactly those hits'
records. -/
theorem pexelsLoop_run (pages : Nat → List PexelsVideo) (min_width limit : Nat) :
    ∀ (k p : Nat) (out : List SearchResult) (fuel : Nat),
    pages (p + k) = [] →
    (∀ j, j < k → pages (p + j) ≠ []) →
    out.length + pexelsTotal pages min_width p k < limit →
    k < fuel →
    pexelsLoop pages min_width limit fuel p out =
      some (out ++ pexelsRecsFrom pages min_width p k)
  | 0, p, out, fuel, h0, _, htot, hfuel => by
    obtain ⟨f, rfl⟩ : ∃ f, fuel = f + 1 := ⟨fuel - 1, by omega⟩
    have hvids : pages p = [] := by simpa using h0
    have hlt : out.length < limit := by
      simp [pexelsTotal] at htot
      exact htot
    simp [pexelsLoop, hlt, hvids, pexelsPage, pexelsRecsFrom]
  | k + 1, p, out, fuel, h0, hne, htot, hfuel => by
    obtain ⟨f, rfl⟩ : ∃ f, fuel = f + 1 := ⟨fuel - 1, by omega⟩
    have hvids : pages p ≠ [] := by simpa using hne 0 (by omega)
    have htot' : pexelsTotal pages min_width p (k + 1) =
        pexelsMatchCount min_width (pages p) + pexelsTotal pages min_width (p + 1) k := rfl
    have hlt : out.length < limit := by omega
    have hpage : pexelsPage min_width limit (pages p) out =
        out ++ pexelsPageRecs min_width (pages p) :=
      pexelsPage_no_cap min_width limit (pages p) out (by omega)
    have hlen2 : (out ++ pexelsPageRecs min_width (pages p)).length =
        out.length + pexelsMatchCount min_width (pages p) := by
      rw [List.length_append, pexelsPageRecs_length]
    have hnotfull : ¬ limit ≤ (out ++ pexelsPageRecs min_width (pages p)).length := by
      rw [hlen2]; omega
    have hrec := pexelsLoop_run pages min_width limit k (p + 1)
      (out ++ pexelsPageRecs min_width (pages p)) f
      (by rw [show p + 1 + k = p + (k + 1) by omega]; exact h0)
      (fun j hj => by rw [show p + 1 + j = p + (j + 1) by omega]; exact hne (j + 1) (by omega))
      (by rw [hlen2]; omega)
      (by omega)
    have hempty : (pages p).isEmpty = false := by
      cases hp : pages p with
      | nil => exact absurd hp hvids
      | cons a l => rfl
    simp only [pexelsLoop, if_pos hlt, hpage, hempty, Bool.false_or, hrec,
      pexelsRecsFrom, List.append_assoc]
    rw [if_neg (by simpa using hnotfull)]

/-- Number of hits on one Pixabay page that pass the width filter. -/
def pixabayMatchCount (min_width : Nat) (hits : List PixHit) : Nat :=
  (hits.filter (fun h => (pixabayPick min_width h).isSome)).length

/-- Total matching Pixabay hits on the `k` pages starting at page `p`. -/
def pixabayTotal (pages : Nat → List PixHit) (min_width : Nat) : Nat → Nat → Nat
  | _, 0 => 0
  | p, k + 1 => pixabayMatchCount min_width (pages p) + pixabayTotal pages min_width (p + 1) k

/-- The records one Pixabay page contributes when the cap is not hit. -/
def pixabayPageRecs (min_width : Nat) (hits : List PixHit) : List SearchResult :=
  hits.filterMap (fun h => (pixabayPick min_width h).map (pixabayRecord h))

/-- The records of the `k` Pixabay pages starting at page `p`. -/
def pixabayRecsFrom (pages : Nat → List PixHit) (min_width : Nat) :
    Nat → Nat → List SearchResult
  | _, 0 => []
  | p, k + 1 =>
    pixabayPageRecs min_width (pages p) ++ pixabayRecsFrom pages min_width (p + 1) k

/-- One Pixabay page contributes as many records as its matching hits. -/
theorem pixabayPageRecs_length (min_width : Nat) (hits : List PixHit) :
    (pixabayPageRecs min_width hits).length = pixabayMatchCount min_width hits := by
  unfold pixabayPageRecs pixabayMatchCount
  rw [List.length_filterMap_eq_countP, ← List.countP_eq_length_filter]
  apply List.countP_congr
  intro h _
  cases pixabayPick min_width h <;> simp

/-- While the cap stays out of reach, the Pixabay page body appends
exactly the page's matching records. -/
theorem pixabayPage_no_cap (min_width limit : Nat) :
    ∀ (hits : List PixHit) (out : List SearchResult),
    out.length + pixabayMatchCount min_width hits < limit →
    pixabayPage min_width limit hits out = out ++ pixabayPageRecs min_width hits
  | [], out, _ => by simp [pixabayPage, pixabayPageRecs]
  | h :: rest, out, hcap => by
    cases hp : pixabayPick min_width h with
    | none =>
      have hcount : pixabayMatchCount min_width (h :: rest) =
          pixabayMatchCount min_width rest := by
        unfold pixabayMatchCount
        rw [List.filter_cons_of_neg (by simp [hp])]
      rw [show pixabayPage min_width limit (h :: rest) out =
        pixabayPage min_width limit rest out by simp [pixabayPage, hp]]
      rw [show pixabayPageRecs min_width (h :: rest) = pixabayPageRecs min_width rest from
        List.filterMap_cons_none (by simp [hp])]
      exact pixabayPage_no_cap min_width limit rest out (by rw [← hcount]; exact hcap)
    | some c =>
      have hcount : pixabayMatchCount min_width (h :: rest) =
          pixabayMatchCount min_width rest + 1 := by
        unfold pixabayMatchCount
        rw [List.filter_cons_of_pos (by simp [hp])]
        simp
      have h2 : out.length + (pixabayMatchCount min_width rest + 1) < limit := by
        rw [hcount] at hcap
        exact hcap
      have hnotfull : ¬ limit ≤ out.length + 1 := by omega
      rw [show pixabayPage min_width limit (h :: rest) out =
        pixabayPage min_width limit rest (out ++ [pixabayRecord h c]) by
          simp [pixabayPage, hp, hnotfull]]
      rw [show pixabayPageRecs min_width (h :: rest) =
        pixabayRecord h c :: pixabayPageRecs min_width rest from
        List.filterMap_cons_some (by simp [hp])]
      rw [pixabayPage_no_cap min_width limit rest (out ++ [pixabayRecord h c]) (by
        simp only [List.length_append, List.length_cons, List.length_nil]
        omega)]
      simp

/-- Any `k` Pixabay pages contribute as many records as their matching hits. -/
theorem pixabayRecsFrom_length (pages : Nat → List PixHit) (min_width : Nat) :
    ∀ (k p : Nat),
    (pixabayRecsFrom pages min_width p k).length = pixabayTotal pages min_width p k
  | 0, _ => rfl
  | k + 1, p => by
    unfold pixabayRecsFrom pixabayTotal
    rw [List.length_append, pixabayPageRecs_length,
      pixabayRecsFrom_length pages min_width k (p + 1)]

/-- Running the Pixabay pagination loop from page `p`, when the `k`-th
page ahead is the first empty one and fewer matching hits than `limit`
remain, stops at that empty page having appended exactly those hits'
records. -/
theorem pixabayLoop_run (pages : Nat → List PixHit) (min_width limit : Nat) :
    ∀ (k p : Nat) (out : List SearchResult) (fuel : Nat),
    pages (p + k) = [] →
    (∀ j, j < k → pages (p + j) ≠ []) →
    out.length + pixabayTotal pages min_width p k < limit →
    k < fuel →
    pixabayLoop pages min_width limit fuel p out =
      some (out ++ pixabayRecsFrom pages min_width p k)
  | 0, p, out, fuel, h0, _, htot, hfuel => by
    obtain ⟨f, rfl⟩ : ∃ f, fuel = f + 1 := ⟨fuel - 1, by omega⟩
    have hhits : pages p = [] := by simpa using h0
    have hlt : out.length < limit := by
      simp [pixabayTotal] at htot
      exact htot
    simp [pixabayLoop, hlt, hhits, pixabayPage, pixabayRecsFrom]
  | k + 1, p, out, fuel, h0, hne, htot, hfuel => by
    obtain ⟨f, rfl⟩ : ∃ f, fuel = f + 1 := ⟨fuel - 1, by omega⟩
    have hhits : pages p ≠ [] := by simpa using hne 0 (by omega)
    have htot2 : pixabayTotal pages min_width p (k + 1) =
        pixabayMatchCount min_width (pages p) + pixabayTotal pages min_width (p + 1) k := rfl
    have hlt : out.length < limit := by omega
    have hpage : pixabayPage min_width limit (pages p) out =
        out ++ pixabayPageRecs min_width (pages p) :=
      pixabayPage_no_cap min_width limit (pages p) out (by omega)
    have hlen2 : (out ++ pixabayPageRecs min_width (pages p)).length =
        out.length + pixabayMatchCount min_width (pages p) := by
      rw [List.length_append, pixabayPageRecs_length]
    have hnotfull : ¬ limit ≤ (out ++ pixabayPageRecs min_width (pages p)).length := by
      rw [hlen2]; omega
    have hrec := pixabayLoop_run pages min_width limit k (p + 1)
      (out ++ pixabayPageRecs min_width (pages p)) f
      (by rw [show p + 1 + k = p + (k + 1) by omega]; exact h0)
      (fun j hj => by rw [show p + 1 + j = p + (j + 1) by omega]; exact hne (j + 1) (by omega))
      (by rw [hlen2]; omega)
      (by omega)
    have hempty : (pages p).isEmpty = false := by
      cases hp : pages p with
      | nil => exact absurd hp hhits
      | cons a l => rfl
    simp only [pixabayLoop, if_pos hlt, hpage, hempty, Bool.false_or, hrec,
      pixabayRecsFrom, List.append_assoc]
    rw [if_neg (by simpa using hnotfull)]

/-! ### The `TypeError` path of `candidates.sort`

Python's tuple comparison is partial: ordering two `(w, url, height)`
tuples walks the components, skips equal ones, and applies `<` to the
first unequal pair; comparing `None` against a string or an integer
there raises `TypeError`, which aborts `candidates.sort(reverse=True)`
and the whole `pixabay_search` call.  `pixSort` above totalizes that
path (it is only used where the program is defined); the definitions
below carry it. -/

/-- Whether Python can order the two candidate tuples: the first
unequal component decides, and a `None`-versus-value comparison there
raises. -/
def pyComparable (a b : PixCand) : Bool :=
  if a.w ≠ b.w then true
  else if a.url ≠ b.url then a.url.isSome && b.url.isSome
  else if a.height ≠ b.height then a.height.isSome && b.height.isSome
  else true

/-- Whether `candidates.sort(reverse=True)` is defined on the list: no
pair of tuples is incomparable.  (Which pairs timsort actually
compares is implementation-defined; on a fully comparable list the
sort certainly completes, and on a two-element incomparable list it
certainly raises, which is all the theorems below rely on.) -/
def pixSortable (cs : List PixCand) : Bool :=
  cs.all (fun a => cs.all (fun b => pyComparable a b))

/-- Outcome of a `pixabay_search` call with the sort's error path kept:
either a result list or the propagated `TypeError`. -/
inductive PixOutcome where
  | ok : List SearchResult → PixOutcome
  | typeError : PixOutcome
deriving DecidableEq

/-- The `for h in hits` body of `pixabay_search` with the sort's error
path kept: building and sorting a hit's candidates happens before the
pick, so an unsortable hit aborts the call there. -/
def pixabayPageE (min_width limit : Nat) : List PixHit → List SearchResult → PixOutcome
  | [], out => PixOutcome.ok out
  | h :: rest, out =>
    if pixSortable (pixCands h) then
      match pixabayPick min_width h with
      | none => pixabayPageE min_width limit rest out
      | some c =>
        let out2 := out ++ [pixabayRecord h c]
        if limit ≤ out2.length then PixOutcome.ok out2
        else pixabayPageE min_width limit rest out2
    else PixOutcome.typeError

/-- The `while len(out) < limit` pagination loop of `pixabay_search`
with the sort's error path kept; a raised `TypeError` propagates out of
the loop. -/
def pixabayLoopE (pages : Nat → List PixHit) (min_width limit : Nat) :
    Nat → Nat → List SearchResult → Option PixOutcome
  | 0, _, _ => none
  | fuel + 1, page, out =>
    if out.length < limit then
      let hits := pages page
      match pixabayPageE min_width limit hits out with
      | PixOutcome.typeError => some PixOutcome.typeError
      | PixOutcome.ok out2 =>
        if hits.isEmpty || limit ≤ out2.length then some (PixOutcome.ok out2)
        else pixabayLoopE pages min_width limit fuel (page + 1) out2
    else some (PixOutcome.ok out)

/-- Function `pixabay_search(keyword, limit, min_width)` with the
sort's error path kept. -/
def pixabay_searchE (api_key : Option String) (pages : Nat → List PixHit)
    (keyword : String) (limit min_width fuel : Nat) : Option PixOutcome :=
  match api_key, keyword with
  | none, _ => some (PixOutcome.ok [])
  | some _, _ => pixabayLoopE pages min_width limit fuel 1 []

/-- On a page whose hits are all sortable, the error-aware page body
agrees with the totalized one. -/
theorem pixabayPageE_eq (min_width limit : Nat) :
    ∀ (hits : List PixHit) (out : List SearchResult),
    (∀ h ∈ hits, pixSortable (pixCands h) = true) →
    pixabayPageE min_width limit hits out =
      PixOutcome.ok (pixabayPage min_width limit hits out)
  | [], out, _ => rfl
  | h :: rest, out, hs => by
    have hh : pixSortable (pixCands h) = true := hs h (List.mem_cons_self _ _)
    have hrest : ∀ g ∈ rest, pixSortable (pixCands g) = true :=
      fun g hg => hs g (List.mem_cons_of_mem _ hg)
    cases hp : pixabayPick min_width h with
    | none =>
      rw [show pixabayPageE min_width limit (h :: rest) out =
        pixabayPageE min_width limit rest out by simp [pixabayPageE, hh, hp]]
      rw [show pixabayPage min_width limit (h :: rest) out =
        pixabayPage min_width limit rest out by simp [pixabayPage, hp]]
      exact pixabayPageE_eq min_width limit rest out hrest
    | some c =>
      by_cases hfull : limit ≤ out.length + 1
      · rw [show pixabayPageE min_width limit (h :: rest) out =
          PixOutcome.ok (out ++ [pixabayRecord h c]) by simp [pixabayPageE, hh, hp, hfull]]
        rw [show pixabayPage min_width limit (h :: rest) out = out ++ [pixabayRecord h c] by
          simp [pixabayPage, hp, hfull]]
      · rw [show pixabayPageE min_width limit (h :: rest) out =
          pixabayPageE min_width limit rest (out ++ [pixabayRecord h c]) by
            simp [pixabayPageE, hh, hp, hfull]]
        rw [show pixabayPage min_width limit (h :: rest) out =
          pixabayPage min_width limit rest (out ++ [pixabayRecord h c]) by
            simp [pixabayPage, hp, hfull]]
        exact pixabayPageE_eq min_width limit rest (out ++ [pixabayRecord h c]) hrest

/-- Running the error-aware Pixabay loop from page `p`: when the `k`-th
page ahead is the first empty one, every hit before it sorts without a
`TypeError`, and fewer matching hits than `limit` remain, the loop
stops at that empty page having appended exactly those hits'
records. -/
theorem pixabayLoopE_run (pages : Nat → List PixHit) (min_width limit : Nat) :
    ∀ (k p : Nat) (out : List SearchResult) (fuel : Nat),
    pages (p + k) = [] →
    (∀ j, j < k → pages (p + j) ≠ []) →
    (∀ j, j < k → ∀ h ∈ pages (p + j), pixSortable (pixCands h) = true) →
    out.length + pixabayTotal pages min_width p k < limit →
    k < fuel →
    pixabayLoopE pages min_width limit fuel p out =
      some (PixOutcome.ok (out ++ pixabayRecsFrom pages min_width p k))
  | 0, p, out, fuel, h0, _, _, htot, hfuel => by
    obtain ⟨f, rfl⟩ : ∃ f, fuel = f + 1 := ⟨fuel - 1, by omega⟩
    have hhits : pages p = [] := by simpa using h0
    have hlt : out.length < limit := by
      simp [pixabayTotal] at htot
      exact htot
    simp [pixabayLoopE, hlt, hhits, pixabayPageE, pixabayRecsFrom]
  | k + 1, p, out, fuel, h0, hne, hsort, htot, hfuel => by
    obtain ⟨f, rfl⟩ : ∃ f, fuel = f + 1 := ⟨fuel - 1, by omega⟩
    have hhits : pages p ≠ [] := by simpa using hne 0 (by omega)
    have hsp : ∀ h ∈ pages p, pixSortable (pixCands h) = true := by
      have hs0 := hsort 0 (by omega)
      simpa using hs0
    have htot2 : pixabayTotal pages min_width p (k + 1) =
        pixabayMatchCount min_width (pages p) + pixabayTotal pages min_width (p + 1) k := rfl
    have hlt : out.length < limit := by omega
    have hpage : pixabayPage min_width limit (pages p) out =
        out ++ pixabayPageRecs min_width (pages p) :=
      pixabayPage_no_cap min_width limit (pages p) out (by omega)
    have hpageE : pixabayPageE min_width limit (pages p) out =
        PixOutcome.ok (out ++ pixabayPageRecs min_width (pages p)) := by
      rw [pixabayPageE_eq min_width limit (pages p) out hsp, hpage]
    have hlen2 : (out ++ pixabayPageRecs min_width (pages p)).length =
        out.length + pixabayMatchCount min_width (pages p) := by
      rw [List.length_append, pixabayPageRecs_length]
    have hnotfull : ¬ limit ≤ (out ++ pixabayPageRecs min_width (pages p)).length := by
      rw [hlen2]; omega
    have hrec := pixabayLoopE_run pages min_width limit k (p + 1)
      (out ++ pixabayPageRecs min_width (pages p)) f
      (by rw [show p + 1 + k = p + (k + 1) by omega]; exact h0)
      (fun j hj => by rw [show p + 1 + j = p + (j + 1) by omega]; exact hne (j + 1) (by omega))
      (fun j hj => by
        rw [show p + 1 + j = p + (j + 1) by omega]
        exact hsort (j + 1) (by omega))
      (by rw [hlen2]; omega)
      (by omega)
    have hempty : (pages p).isEmpty = false := by
      cases hp : pages p with
      | nil => exact absurd hp hhits
      | cons a l => rfl
    simp only [pixabayLoopE, if_pos hlt, hpageE, hempty, Bool.false_or, hrec,
      pixabayRecsFrom, List.append_assoc]
    rw [if_neg (by simpa using hnotfull)]

/-- C6 fails on the code as stated: a page may hold a hit whose
candidate tuples tie on width with a `None`-versus-string url, so
`candidates.sort(reverse=True)` raises `TypeError` and the adapter
returns nothing — here a two-variant hit (whose pair the sort must
compare) sits before one matching hit with one empty page after, N = 1
< limit, yet no records come back. -/
theorem adapters_pagination_cex :
    pixabay_searchE (some "k")
      (fun p => if p = 1 then
        [⟨some 9, some "bad", [⟨some 100, some 1, none⟩, ⟨some 100, some 1, some "u"⟩], none⟩,
         ⟨some 2, some "cats", [⟨some 1280, some 720, some "pu"⟩], some "pl2"⟩] else [])
      "kw" 2 720 2 = some PixOutcome.typeError ∧
    ∀ l : List SearchResult,
      pixabay_searchE (some "k")
        (fun p => if p = 1 then
          [⟨some 9, some "bad", [⟨some 100, some 1, none⟩, ⟨some 100, some 1, some "u"⟩], none⟩,
           ⟨some 2, some "cats", [⟨some 1280, some 720, some "pu"⟩], some "pl2"⟩] else [])
        "kw" 2 720 2 ≠ some (PixOutcome.ok l) := by
  have h1 : pixabay_searchE (some "k")
      (fun p => if p = 1 then
        [⟨some 9, some "bad", [⟨some 100, some 1, none⟩, ⟨some 100, some 1, some "u"⟩], none⟩,
         ⟨some 2, some "cats", [⟨some 1280, some 720, some "pu"⟩], some "pl2"⟩] else [])
      "kw" 2 720 2 = some PixOutcome.typeError := by decide
  refine ⟨h1, ?_⟩
  intro l h
  rw [h1] at h
  injection h with h2
  exact PixOutcome.noConfusion h2

/-- C6 amended: for every `limit ≥ 1` and simulated providers with
`N < limit` total matching hits before an eventual empty page, and —
for Pixabay — every consumed hit's candidate tuples pairwise
comparable (so `candidates.sort` cannot raise `TypeError`), both
pagination loops terminate at the first empty page and return exactly
the `N` matching records. -/
theorem adapters_pagination_terminate_sortable
    (keyA keyB kwA kwB : String) (pagesA : Nat → List PexelsVideo)
    (pagesB : Nat → List PixHit) (limit min_width kA kB fuelA fuelB : Nat)
    (hA0 : pagesA (1 + kA) = []) (hA1 : ∀ j, j < kA → pagesA (1 + j) ≠ [])
    (hNA : pexelsTotal pagesA min_width 1 kA < limit) (hfA : kA < fuelA)
    (hB0 : pagesB (1 + kB) = []) (hB1 : ∀ j, j < kB → pagesB (1 + j) ≠ [])
    (hBs : ∀ j, j < kB → ∀ h ∈ pagesB (1 + j), pixSortable (pixCands h) = true)
    (hNB : pixabayTotal pagesB min_width 1 kB < limit) (hfB : kB < fuelB) :
    pexels_search (some keyA) pagesA kwA limit min_width fuelA =
      some (pexelsRecsFrom pagesA min_width 1 kA) ∧
    (pexelsRecsFrom pagesA min_width 1 kA).length = pexelsTotal pagesA min_width 1 kA ∧
    pixabay_searchE (some keyB) pagesB kwB limit min_width fuelB =
      some (PixOutcome.ok (pixabayRecsFrom pagesB min_width 1 kB)) ∧
    (pixabayRecsFrom pagesB min_width 1 kB).length = pixabayTotal pagesB min_width 1 kB := by
  refine ⟨?_, pexelsRecsFrom_length pagesA min_width kA 1, ?_,
    pixabayRecsFrom_length pagesB min_width kB 1⟩
  · show pexelsLoop pagesA min_width limit fuelA 1 [] = _
    have h := pexelsLoop_run pagesA min_width limit kA 1 [] fuelA hA0 hA1 (by simpa using hNA) hfA
    simpa using h
  · show pixabayLoopE pagesB min_width limit fuelB 1 [] = _
    have h := pixabayLoopE_run pagesB min_width limit kB 1 [] fuelB hB0 hB1 hBs
      (by simpa using hNB) hfB
    simpa using h

/-- Witness for `adapters_pagination_terminate_sortable` at concrete
one-page providers. -/
theorem adapters_pagination_terminate_sortable_witness :
    pexels_search (some "ka")
      (fun p => if p = 1 then [⟨some 1, some "Ann", [⟨some 800, some 450, some "u"⟩], some "pl"⟩] else [])
      "kw" 2 720 2 =
      some (pexelsRecsFrom
        (fun p => if p = 1 then [⟨some 1, some "Ann", [⟨some 800, some 450, some "u"⟩], some "pl"⟩] else [])
        720 1 1) ∧
    (pexelsRecsFrom
        (fun p => if p = 1 then [⟨some 1, some "Ann", [⟨some 800, some 450, some "u"⟩], some "pl"⟩] else [])
        720 1 1).length =
      pexelsTotal
        (fun p => if p = 1 then [⟨some 1, some "Ann", [⟨some 800, some 450, some "u"⟩], some "pl"⟩] else [])
        720 1 1 ∧
    pixabay_searchE (some "kb")
      (fun p => if p = 1 then [⟨some 2, some "cats", [⟨some 640, some 360, some "pu"⟩], some "pl2"⟩] else [])
      "kw" 2 720 2 =
      some (PixOutcome.ok (pixabayRecsFrom
        (fun p => if p = 1 then [⟨some 2, some "cats", [⟨some 640, some 360, some "pu"⟩], some "pl2"⟩] else [])
        720 1 1)) ∧
    (pixabayRecsFrom
        (fun p => if p = 1 then [⟨some 2, some "cats", [⟨some 640, some 360, some "pu"⟩], some "pl2"⟩] else [])
        720 1 1).length =
      pixabayTotal
        (fun p => if p = 1 then [⟨some 2, some "cats", [⟨some 640, some 360, some "pu"⟩], some "pl2"⟩] else [])
        720 1 1 :=
  adapters_pagination_terminate_sortable "ka" "kb" "kw" "kw" _ _ 2 720 1 1 2 2
    (by decide) (by decide)
    (by simp [pexelsTotal, pexelsMatchCount, pexelsPick, pexelsSortFiles, pexKey, List.mergeSort])
    (by decide)
    (by decide) (by decide)
    (by decide)
    (by simp [pixabayTotal, pixabayMatchCount, pixabayPick, pixSort, pixCands, pixKey, List.mergeSort])
    (by decide)

/-! ### Theorems: variant selection and the width floor -/

/-- In a list sorted weakly descending by a numeric key, the first
element clearing a threshold carries the maximal key of the list. -/
theorem find?_ge_max {α : Type} (key : α → Nat) (m : Nat) :
    ∀ (l : List α), List.Pairwise (fun a b => key b ≤ key a) l →
    ∀ f, l.find? (fun x => m ≤ key x) = some f →
    m ≤ key f ∧ ∀ g ∈ l, key g ≤ key f
  | [], _, f, hf => by simp [List.find?] at hf
  | x :: t, hp, f, hf => by
    rw [List.pairwise_cons] at hp
    obtain ⟨hx, ht⟩ := hp
    by_cases hpx : m ≤ key x
    · rw [List.find?_cons_of_pos _ (by simpa using hpx)] at hf
      injection hf with hf
      subst hf
      refine ⟨hpx, ?_⟩
      intro g hg
      rcases List.mem_cons.mp hg with rfl | hg
      · exact Nat.le_refl _
      · exact hx g hg
    · rw [List.find?_cons_of_neg _ (by simpa using hpx)] at hf
      obtain ⟨h1, h2⟩ := find?_ge_max key m t ht f hf
      refine ⟨h1, ?_⟩
      intro g hg
      rcases List.mem_cons.mp hg with rfl | hg
      · omega
      · exact h2 g hg

/-- The sorted `video_files` list is weakly descending in the sort key. -/
theorem pexelsSortFiles_pairwise (files : List PexelsFile) :
    List.Pairwise (fun a b => pexKey b ≤ pexKey a) (pexelsSortFiles files) := by
  have h := @List.sorted_mergeSort PexelsFile
    (fun a b : PexelsFile => decide (pexKey b ≤ pexKey a))
    (fun a b c hab hbc => by
      simp only [decide_eq_true_eq] at *
      omega)
    (fun a b => by
      rcases Nat.le_total (pexKey b) (pexKey a) with h | h <;> simp [h])
    files
  unfold pexelsSortFiles
  exact h.imp (fun hab => by simpa using hab)

/-- The Pexels variant pick both clears the floor and is a
highest-width variant of the hit. -/
theorem pexelsPick_max (min_width : Nat) (files : List PexelsFile) (f : PexelsFile)
    (hf : pexelsPick min_width files = some f) :
    min_width ≤ pexKey f ∧ ∀ g ∈ files, pexKey g ≤ pexKey f := by
  unfold pexelsPick at hf
  obtain ⟨h1, h2⟩ := find?_ge_max pexKey min_width (pexelsSortFiles files)
    (pexelsSortFiles_pairwise files) f hf
  refine ⟨h1, fun g hg => h2 g ?_⟩
  unfold pexelsSortFiles
  exact (List.mergeSort_perm files _).mem_iff.mpr hg

/-- The sorted candidate tuples are weakly descending in width. -/
theorem pixSort_pairwise (cs : List PixCand) :
    List.Pairwise (fun a b : PixCand => b.w ≤ a.w) (pixSort cs) := by
  have h := @List.sorted_mergeSort PixCand
    (fun a b : PixCand => decide (pixKey b ≤ pixKey a))
    (fun a b c hab hbc => by
      simp only [decide_eq_true_eq] at *
      exact le_trans hbc hab)
    (fun a b => by
      rcases le_total (pixKey b) (pixKey a) with h | h <;> simp [h])
    cs
  unfold pixSort
  refine h.imp (fun hab => ?_)
  have h1 := of_decide_eq_true hab
  unfold pixKey at h1
  rcases (Prod.Lex.le_iff _ _).mp h1 with h2 | ⟨h2, _⟩
  · exact le_of_lt h2
  · exact le_of_eq h2

/-- The Pixabay candidate pick both clears the floor and has width at
least every variant's (coerced) width. -/
theorem pixabayPick_max (min_width : Nat) (h : PixHit) (c : PixCand)
    (hc : pixabayPick min_width h = some c) :
    min_width ≤ c.w ∧ ∀ v ∈ h.videos, v.width.getD 0 ≤ c.w := by
  unfold pixabayPick at hc
  obtain ⟨h1, h2⟩ := find?_ge_max PixCand.w min_width (pixSort (pixCands h))
    (pixSort_pairwise (pixCands h)) c hc
  refine ⟨h1, fun v hv => ?_⟩
  have hmem : ({ w := v.width.getD 0, url := v.url, height := v.height } : PixCand) ∈
      pixCands h := List.mem_map.mpr ⟨v, hv, rfl⟩
  have hms : ({ w := v.width.getD 0, url := v.url, height := v.height } : PixCand) ∈
      pixSort (pixCands h) := by
    unfold pixSort
    exact (List.mergeSort_perm _ _).mem_iff.mpr hmem
  simpa using h2 _ hms

/-- Every record leaving the Pexels page body was already in `out` or
came from a successful pick. -/
theorem pexelsPage_mem (min_width limit : Nat) :
    ∀ (vids : List PexelsVideo) (out : List SearchResult),
    ∀ r ∈ pexelsPage min_width limit vids out,
    r ∈ out ∨ ∃ v fl, pexelsPick min_width v.video_files = some fl ∧ r = pexelsRecord v fl
  | [], out, r, hr => by
    rw [show pexelsPage min_width limit [] out = out from rfl] at hr
    exact Or.inl hr
  | v :: rest, out, r, hr => by
    cases hp : pexelsPick min_width v.video_files with
    | none =>
      rw [show pexelsPage min_width limit (v :: rest) out =
        pexelsPage min_width limit rest out by simp [pexelsPage, hp]] at hr
      exact pexelsPage_mem min_width limit rest out r hr
    | some fl =>
      by_cases hfull : limit ≤ (out ++ [pexelsRecord v fl]).length
      · rw [show pexelsPage min_width limit (v :: rest) out = out ++ [pexelsRecord v fl] by
          simp [pexelsPage, hp]
          intro hc
          simp at hfull
          omega] at hr
        rcases List.mem_append.mp hr with hr | hr
        · exact Or.inl hr
        · exact Or.inr ⟨v, fl, hp, by simpa using hr⟩
      · rw [show pexelsPage min_width limit (v :: rest) out =
          pexelsPage min_width limit rest (out ++ [pexelsRecord v fl]) by
            simp [pexelsPage, hp]
            intro hc
            simp at hfull
            omega] at hr
        rcases pexelsPage_mem min_width limit rest (out ++ [pexelsRecord v fl]) r hr with hr | hr
        · rcases List.mem_append.mp hr with hr | hr
          · exact Or.inl hr
          · exact Or.inr ⟨v, fl, hp, by simpa using hr⟩
        · exact Or.inr hr

/-- Every record in a finished Pexels pagination run was carried in or
came from a successful pick. -/
theorem pexelsLoop_mem (pages : Nat → List PexelsVideo) (min_width limit : Nat) :
    ∀ (fuel page : Nat) (out res : List SearchResult),
    pexelsLoop pages min_width limit fuel page out = some res →
    ∀ r ∈ res,
    r ∈ out ∨ ∃ v fl, pexelsPick min_width v.video_files = some fl ∧ r = pexelsRecord v fl
  | 0, page, out, res, hres => by simp [pexelsLoop] at hres
  | fuel + 1, page, out, res, hres => by
    by_cases hg : out.length < limit
    · rw [show pexelsLoop pages min_width limit (fuel + 1) page out =
        (if (pages page).isEmpty = true ∨
            limit ≤ (pexelsPage min_width limit (pages page) out).length
         then some (pexelsPage min_width limit (pages page) out)
         else pexelsLoop pages min_width limit fuel (page + 1)
           (pexelsPage min_width limit (pages page) out)) by
          simp [pexelsLoop, hg]] at hres
      by_cases hb : (pages page).isEmpty = true ∨
          limit ≤ (pexelsPage min_width limit (pages page) out).length
      · rw [if_pos hb] at hres
        injection hres with hres
        subst hres
        exact pexelsPage_mem min_width limit (pages page) out
      · rw [if_neg hb] at hres
        intro r hr
        rcases pexelsLoop_mem pages min_width limit fuel (page + 1) _ res hres r hr with h2 | h2
        · exact pexelsPage_mem min_width limit (pages page) out r h2
        · exact Or.inr h2
    · rw [show pexelsLoop pages min_width limit (fuel + 1) page out = some out by
        simp [pexelsLoop, hg]] at hres
      injection hres with hres
      subst hres
      exact fun r hr => Or.inl hr

/-- Every record leaving the Pixabay page body was already in `out` or
came from a successful pick. -/
theorem pixabayPage_mem (min_width limit : Nat) :
    ∀ (hits : List PixHit) (out : List SearchResult),
    ∀ r ∈ pixabayPage min_width limit hits out,
    r ∈ out ∨ ∃ h c, pixabayPick min_width h = some c ∧ r = pixabayRecord h c
  | [], out, r, hr => by
    rw [show pixabayPage min_width limit [] out = out from rfl] at hr
    exact Or.inl hr
  | h :: rest, out, r, hr => by
    cases hp : pixabayPick min_width h with
    | none =>
      rw [show pixabayPage min_width limit (h :: rest) out =
        pixabayPage min_width limit rest out by simp [pixabayPage, hp]] at hr
      exact pixabayPage_mem min_width limit rest out r hr
    | some c =>
      by_cases hfull : limit ≤ (out ++ [pixabayRecord h c]).length
      · rw [show pixabayPage min_width limit (h :: rest) out = out ++ [pixabayRecord h c] by
          simp [pixabayPage, hp]
          intro hc
          simp at hfull
          omega] at hr
        rcases List.mem_append.mp hr with hr | hr
        · exact Or.inl hr
        · exact Or.inr ⟨h, c, hp, by simpa using hr⟩
      · rw [show pixabayPage min_width limit (h :: rest) out =
          pixabayPage min_width limit rest (out ++ [pixabayRecord h c]) by
            simp [pixabayPage, hp]
            intro hc
            simp at hfull
            omega] at hr
        rcases pixabayPage_mem min_width limit rest (out ++ [pixabayRecord h c]) r hr with hr | hr
        · rcases List.mem_append.mp hr with hr | hr
          · exact Or.inl hr
          · exact Or.inr ⟨h, c, hp, by simpa using hr⟩
        · exact Or.inr hr

/-- Every record in a finished Pixabay pagination run was carried in or
came from a successful pick. -/
theorem pixabayLoop_mem (pages : Nat → List PixHit) (min_width limit : Nat) :
    ∀ (fuel page : Nat) (out res : List SearchResult),
    pixabayLoop pages min_width limit fuel page out = some res →
    ∀ r ∈ res,
    r ∈ out ∨ ∃ h c, pixabayPick min_width h = some c ∧ r = pixabayRecord h c
  | 0, page, out, res, hres => by simp [pixabayLoop] at hres
  | fuel + 1, page, out, res, hres => by
    by_cases hg : out.length < limit
    · rw [show pixabayLoop pages min_width limit (fuel + 1) page out =
        (if (pages page).isEmpty = true ∨
            limit ≤ (pixabayPage min_width limit (pages page) out).length
         then some (pixabayPage min_width limit (pages page) out)
         else pixabayLoop pages min_width limit fuel (page + 1)
           (pixabayPage min_width limit (pages page) out)) by
          simp [pixabayLoop, hg]] at hres
      by_cases hb : (pages page).isEmpty = true ∨
          limit ≤ (pixabayPage min_width limit (pages page) out).length
      · rw [if_pos hb] at hres
        injection hres with hres
        subst hres
        exact pixabayPage_mem min_width limit (pages page) out
      · rw [if_neg hb] at hres
        intro r hr
        rcases pixabayLoop_mem pages min_width limit fuel (page + 1) _ res hres r hr with h2 | h2
        · exact pixabayPage_mem min_width limit (pages page) out r h2
        · exact Or.inr h2
    · rw [show pixabayLoop pages min_width limit (fuel + 1) page out = some out by
        simp [pixabayLoop, hg]] at hres
      injection hres with hres
      subst hres
      exact fun r hr => Or.inl hr

/-- C5 fails on the code as stated: with `min_width = 0`, the Pexels
filter `(f.get("width") or 0) >= min_width` accepts a variant whose
`width` is missing, and the record stores that raw `None` — its width
is not a positive integer. -/
theorem adapter_width_floor_cex :
    pexels_search (some "k")
      (fun p => if p = 1 then [⟨some 1, none, [⟨none, none, some "u"⟩], none⟩] else [])
      "kw" 1 0 2 =
      some [⟨"pexels", some 1, "Pexels 1", none, none, some "u", "Pexels License", none⟩] ∧
    ¬ ∃ w, (⟨"pexels", some 1, "Pexels 1", none, none, some "u", "Pexels License", none⟩ :
        SearchResult).width = some w ∧ 0 < w := by
  constructor
  · simp [pexels_search, pexelsLoop, pexelsPage, pexelsPick, pexelsSortFiles, pexelsRecord,
      pexKey, orElseStr, idStr, List.mergeSort]
    rfl
  · simp

/-- C5 amended: when `min_width ≥ 1`, every record either adapter
returns stores an explicit width that is at least `min_width` (hence a
positive integer), and the picked variant is a highest-width variant
clearing the floor among the hit's variants. -/
theorem adapter_width_floor
    (keyA keyB kwA kwB : String) (pagesA : Nat → List PexelsVideo) (pagesB : Nat → List PixHit)
    (limit min_width fuelA fuelB : Nat) (outA outB : List SearchResult) (rA rB : SearchResult)
    (filesA : List PexelsFile) (fA gA : PexelsFile) (hitB : PixHit) (cB : PixCand)
    (vB : PixVariant)
    (hmw : 1 ≤ min_width)
    (hsA : pexels_search (some keyA) pagesA kwA limit min_width fuelA = some outA)
    (hrA : rA ∈ outA)
    (hsB : pixabay_search (some keyB) pagesB kwB limit min_width fuelB = some outB)
    (hrB : rB ∈ outB)
    (hpA : pexelsPick min_width filesA = some fA) (hgA : gA ∈ filesA)
    (hpB : pixabayPick min_width hitB = some cB) (hvB : vB ∈ hitB.videos) :
    (∃ w, rA.width = some w ∧ min_width ≤ w ∧ 0 < w) ∧
    (∃ w, rB.width = some w ∧ min_width ≤ w ∧ 0 < w) ∧
    (min_width ≤ pexKey fA ∧ pexKey gA ≤ pexKey fA) ∧
    (min_width ≤ cB.w ∧ vB.width.getD 0 ≤ cB.w) := by
  have pexWidth : ∀ (fl : PexelsFile), min_width ≤ pexKey fl →
      ∃ w, fl.width = some w ∧ min_width ≤ w ∧ 0 < w := by
    intro fl hle
    cases hw : fl.width with
    | none =>
      rw [show pexKey fl = 0 by simp [pexKey, hw]] at hle
      omega
    | some w =>
      refine ⟨w, rfl, ?_, ?_⟩
      · rw [show pexKey fl = w by simp [pexKey, hw]] at hle
        exact hle
      · rw [show pexKey fl = w by simp [pexKey, hw]] at hle
        omega
  refine ⟨?_, ?_, ?_, ?_⟩
  · have hloop : pexelsLoop pagesA min_width limit fuelA 1 [] = some outA := hsA
    rcases pexelsLoop_mem pagesA min_width limit fuelA 1 [] outA hloop rA hrA with h | ⟨v, fl, hp, hr⟩
    · simp at h
    · obtain ⟨w, hw, hle, hpos⟩ := pexWidth fl (pexelsPick_max min_width v.video_files fl hp).1
      exact ⟨w, by rw [hr]; simpa [pexelsRecord] using hw, hle, hpos⟩
  · have hloop : pixabayLoop pagesB min_width limit fuelB 1 [] = some outB := hsB
    rcases pixabayLoop_mem pagesB min_width limit fuelB 1 [] outB hloop rB hrB with h | ⟨h, c, hp, hr⟩
    · simp at h
    · have hle := (pixabayPick_max min_width h c hp).1
      exact ⟨c.w, by rw [hr]; simp [pixabayRecord], hle, by omega⟩
  · exact ⟨(pexelsPick_max min_width filesA fA hpA).1,
      (pexelsPick_max min_width filesA fA hpA).2 gA hgA⟩
  · exact ⟨(pixabayPick_max min_width hitB cB hpB).1,
      (pixabayPick_max min_width hitB cB hpB).2 vB hvB⟩

/-- Witness for `adapter_width_floor` at concrete one-page providers
with `min_width = 720`. -/
theorem adapter_width_floor_witness :
    (∃ w, (⟨"pexels", some 1, "Ann", some 800, some 450, some "u", "Pexels License", some "pl"⟩ :
        SearchResult).width = some w ∧ 720 ≤ w ∧ 0 < w) ∧
    (∃ w, (⟨"pixabay", some 2, "cats", some 1280, some 720, some "pu", "Pixabay License",
        some "pl2"⟩ : SearchResult).width = some w ∧ 720 ≤ w ∧ 0 < w) ∧
    (720 ≤ pexKey ⟨some 800, some 450, some "u"⟩ ∧
      pexKey ⟨some 800, some 450, some "u"⟩ ≤ pexKey ⟨some 800, some 450, some "u"⟩) ∧
    (720 ≤ (⟨1280, some "pu", some 720⟩ : PixCand).w ∧
      (⟨some 1280, some 720, some "pu"⟩ : PixVariant).width.getD 0 ≤
        (⟨1280, some "pu", some 720⟩ : PixCand).w) :=
  adapter_width_floor "ka" "kb" "kw" "kw"
    (fun p => if p = 1 then [⟨some 1, some "Ann", [⟨some 800, some 450, some "u"⟩], some "pl"⟩] else [])
    (fun p => if p = 1 then [⟨some 2, some "cats", [⟨some 1280, some 720, some "pu"⟩], some "pl2"⟩] else [])
    2 720 2 2
    [⟨"pexels", some 1, "Ann", some 800, some 450, some "u", "Pexels License", some "pl"⟩]
    [⟨"pixabay", some 2, "cats", some 1280, some 720, some "pu", "Pixabay License", some "pl2"⟩]
    ⟨"pexels", some 1, "Ann", some 800, some 450, some "u", "Pexels License", some "pl"⟩
    ⟨"pixabay", some 2, "cats", some 1280, some 720, some "pu", "Pixabay License", some "pl2"⟩
    [⟨some 800, some 450, some "u"⟩] ⟨some 800, some 450, some "u"⟩ ⟨some 800, some 450, some "u"⟩
    ⟨some 2, some "cats", [⟨some 1280, some 720, some "pu"⟩], some "pl2"⟩
    ⟨1280, some "pu", some 720⟩ ⟨some 1280, some 720, some "pu"⟩
    (by decide)
    (by simp [pexels_search, pexelsLoop, pexelsPage, pexelsPick, pexelsSortFiles, pexelsRecord,
      pexKey, orElseStr, idStr, List.mergeSort])
    (by decide)
    (by simp [pixabay_search, pixabayLoop, pixabayPage, pixabayPick, pixSort, pixCands,
      pixabayRecord, pixKey, orElseStr, idStr, List.mergeSort])
    (by decide)
    (by simp [pexelsPick, pexelsSortFiles, pexKey, List.mergeSort])
    (by decide)
    (by simp [pixabayPick, pixSort, pixCands, pixKey, List.mergeSort])
    (by decide)

end VideoFetcher
